import Mathlib

set_option maxHeartbeats 1000000

/-
Shallow embedding of the research-agent repository:
  - src/unnamed/part_000 (types.ts): the data model
  - src/components/ChatBot.tsx: handleSend (chat flow) and
    runSearchAndEvaluateLoop (research iteration controller)
  - src/services/geminiService.ts: parseJson, generateResearchPlan,
    searchWithGrounding source extraction

Remote model calls are modelled as oracles (functions supplied as
parameters); all local control flow and state manipulation is translated
directly from the source.
-/

namespace ResearchAgent

/-! ## Data model (types.ts) -/

inductive Role where
  | user
  | model
  deriving DecidableEq, Repr

structure ChatMessage where
  role : Role
  text : String
  deriving DecidableEq, Repr

structure Source where
  uri : String
  title : String
  deriving DecidableEq, Repr

structure ResearchPlanItem where
  english_question : String
  japanese_question : String
  deriving DecidableEq, Repr

structure Evaluation where
  is_complete : Bool
  unanswered_questions : List String
  reasoning : String
  deriving DecidableEq, Repr

structure RefinedQuery where
  english_query : String
  japanese_query : String
  deriving DecidableEq, Repr

/-! ## JavaScript `Map` dedup-by-uri
`Array.from(new Map(list.map(s => [s.uri, s])).values())` (ChatBot.tsx line
198 and geminiService.ts line 86).  A JS `Map` keeps keys in first-insertion
order and `set` on an existing key replaces the value in place. -/

/-- `Map.set` semantics: replace in place if the key is present, else append. -/
def insertOrReplace (m : List (String × Source)) (k : String) (v : Source) :
    List (String × Source) :=
  if k ∈ m.map Prod.fst then
    m.map fun p => if p.1 = k then (k, v) else p
  else
    m ++ [(k, v)]

/-- `new Map(l.map(s => [s.uri, s]))`: fold the key/value pairs with `set`. -/
def toJsMap (l : List Source) : List (String × Source) :=
  l.foldl (fun m s => insertOrReplace m s.uri s) []

/-- `Array.from(map.values())`: the values in key-insertion order. -/
def dedupByUri (l : List Source) : List Source :=
  (toJsMap l).map Prod.snd

/-- The value stored for key `k`: the first (hence, once keys are nodup, the
only) entry with that key. -/
def lookupUri (m : List (String × Source)) (k : String) : Option Source :=
  ((m.filter fun p => p.1 == k).head?).map Prod.snd

/-! ## JS string trim (used by handleSend's empty-input check and parseJson) -/

/-- Remove leading and trailing whitespace from a character list (JS
`String.prototype.trim`). -/
def trimList (l : List Char) : List Char :=
  ((l.dropWhile Char.isWhitespace).reverse.dropWhile Char.isWhitespace).reverse

/-- JS `s.trim()`. -/
def jsTrim (s : String) : String := ⟨trimList s.data⟩

/-! ## Chat flow (ChatBot.tsx, handleSend) -/

/-- The fixed apology reply appended when the remote send throws. -/
def fallbackReply : String :=
  "申し訳ありませんが、エラーが発生しました。もう一度お試しください。"

structure ChatState where
  history : List ChatMessage
  input : String
  isLoading : Bool
  deriving DecidableEq, Repr

/-- Result of `chatRef.current.sendMessage`: either a reply text or a thrown
error (caught by handleSend's try/catch). -/
inductive SendOutcome where
  | success (reply : String)
  | failure
  deriving DecidableEq, Repr

/-- handleSend.  `hasChat` models `chatRef.current` being non-null; the
returned Bool records whether a remote send was issued. -/
def handleSend (hasChat : Bool) (outcome : SendOutcome) (st : ChatState) :
    ChatState × Bool :=
  if jsTrim st.input = "" ∨ st.isLoading = true ∨ hasChat = false then
    (st, false)
  else
    let userMessage : ChatMessage := ⟨Role.user, st.input⟩
    let st1 : ChatState := ⟨st.history ++ [userMessage], "", true⟩
    match outcome with
    | SendOutcome.success reply =>
        (⟨st1.history ++ [⟨Role.model, reply⟩], st1.input, false⟩, true)
    | SendOutcome.failure =>
        (⟨st1.history ++ [⟨Role.model, fallbackReply⟩], st1.input, false⟩, true)

/-! ## Research planner (geminiService.ts, generateResearchPlan)
The remote call and JSON.parse are external; the function's own logic is the
null/missing-field check `if (!result || !result.plan) throw`.  `result` is
the parsed response (`none` = parse failure / null). -/

structure PlanResponse where
  plan : Option (List ResearchPlanItem)
  deriving DecidableEq, Repr

def generateResearchPlan (result : Option PlanResponse) :
    Except String (List ResearchPlanItem) :=
  match result with
  | none =>
      Except.error "AI failed to generate a valid research plan from the response."
  | some r =>
      match r.plan with
      | none =>
          Except.error "AI failed to generate a valid research plan from the response."
      | some plan => Except.ok plan

/-! ## Search source extraction (geminiService.ts, searchWithGrounding) -/

structure WebInfo where
  uri : Option String
  title : Option String
  deriving DecidableEq, Repr

structure GroundingChunk where
  web : Option WebInfo
  deriving DecidableEq, Repr

/-- JS `x || dflt` for a string-or-undefined `x`: the empty string is falsy. -/
def jsOrElse (x : Option String) (dflt : String) : String :=
  match x with
  | some s => if s = "" then dflt else s
  | none => dflt

/-- `{ uri: chunk.web?.uri || '', title: chunk.web?.title || 'Untitled Source' }` -/
def sourceOfChunk (chunk : GroundingChunk) : Source :=
  ⟨jsOrElse (chunk.web.bind WebInfo.uri) "",
   jsOrElse (chunk.web.bind WebInfo.title) "Untitled Source"⟩

/-- The pure part of searchWithGrounding: map the grounding chunks to sources,
drop the ones with a falsy (empty) uri, dedup by uri. -/
def searchWithGrounding (text : String) (rawChunks : List GroundingChunk) :
    String × List Source :=
  let sources := (rawChunks.map sourceOfChunk).filter fun s => s.uri != ""
  (text, dedupByUri sources)

/-! ## Research iteration controller (ChatBot.tsx, runSearchAndEvaluateLoop)

The remote stages are oracles: `searchResult i q` is what
`searchWithGrounding(q)` produces during iteration `i` (`error` = the call
threw), `evalResult i` is what `evaluateCompleteness` returns at the end of
iteration `i`, and `refineResult i` is what `refineSearchQueries` returns in
iteration `i`.  The events trace records every call issued, for the temporal
claims; an `error` from evaluate/refine propagates out of the loop (second
component of the result). -/

inductive LoopEvent where
  | searchCall (iteration : Nat) (query : String)
  | evalCall (iteration : Nat)
  | refineCall (iteration : Nat)
  deriving DecidableEq, Repr

structure LoopState where
  accumulatedResults : String
  accumulatedSources : List Source
  sources : List Source
  events : List LoopEvent
  deriving DecidableEq, Repr

structure LoopOracle where
  searchResult : Nat → String → Except String (String × List Source)
  evalResult : Nat → Except String Evaluation
  refineResult : Nat → Except String (List RefinedQuery)

def MAX_ITERATIONS : Nat := 3

/-- One query of the inner `for (const query of queriesToSearch)` loop: on
success append the tagged text to the evidence blob, push the new sources and
re-dedup; on a thrown search error just log and continue. -/
def recordSearch (st : LoopState) (i : Nat) (q : String)
    (outcome : Except String (String × List Source)) : LoopState :=
  match outcome with
  | Except.ok (text, newSources) =>
      let acc := st.accumulatedSources ++ newSources
      { accumulatedResults :=
          st.accumulatedResults ++ "\n\n--- Query: " ++ q ++ " ---\n" ++ text
        accumulatedSources := acc
        sources := dedupByUri acc
        events := st.events ++ [LoopEvent.searchCall i q] }
  | Except.error _ =>
      { st with events := st.events ++ [LoopEvent.searchCall i q] }

/-- The inner for-loop over the current query set. -/
def runQueries (o : LoopOracle) (i : Nat) : List String → LoopState → LoopState
  | [], st => st
  | q :: qs, st => runQueries o i qs (recordSearch st i q (o.searchResult i q))

/-- `newQueries.flatMap(q => [q.english_query, q.japanese_query])` -/
def bilingualQueries : List RefinedQuery → List String
  | [] => []
  | q :: qs => q.english_query :: q.japanese_query :: bilingualQueries qs

/-- `initialPlan.flatMap(item => [item.english_question, item.japanese_question])` -/
def planQueries : List ResearchPlanItem → List String
  | [] => []
  | item :: items =>
      item.english_question :: item.japanese_question :: planQueries items

/-- The body of `for (let i = 0; i < MAX_ITERATIONS; i++)`, with an explicit
fuel argument for termination (fuel = MAX_ITERATIONS at the top call, and the
loop index increments once per fuel unit, so fuel never runs out before the
`i < MAX_ITERATIONS` guard has stopped the loop). -/
def runLoopAux (o : LoopOracle) :
    Nat → List String → LoopState → Nat → LoopState × Option String
  | 0, _, st, _ => (st, none)
  | fuel + 1, queries, st, i =>
      if MAX_ITERATIONS ≤ i then (st, none)
      else
        let st1 := runQueries o i queries st
        let st2 := { st1 with events := st1.events ++ [LoopEvent.evalCall i] }
        match o.evalResult i with
        | Except.error e => (st2, some e)
        | Except.ok ev =>
            if ev.is_complete then (st2, none)
            else if i = MAX_ITERATIONS - 1 then (st2, none)
            else
              let st3 := { st2 with events := st2.events ++ [LoopEvent.refineCall i] }
              match o.refineResult i with
              | Except.error e => (st3, some e)
              | Except.ok newQueries =>
                  if newQueries = [] then (st3, none)
                  else runLoopAux o fuel (bilingualQueries newQueries) st3 (i + 1)

/-- The state after resetState: empty evidence, no sources, no events. -/
def initState : LoopState := ⟨"", [], [], []⟩

def runSearchAndEvaluateLoop (o : LoopOracle) (initialPlan : List ResearchPlanItem) :
    LoopState × Option String :=
  runLoopAux o MAX_ITERATIONS (planQueries initialPlan) initState 0

/-! ### Trace observations -/

def eventIter : LoopEvent → Nat
  | LoopEvent.searchCall i _ => i
  | LoopEvent.evalCall i => i
  | LoopEvent.refineCall i => i

def isSearchCall : LoopEvent → Bool
  | LoopEvent.searchCall _ _ => true
  | _ => false

def isEvalCall : LoopEvent → Bool
  | LoopEvent.evalCall _ => true
  | _ => false

/-- Number of (search-all-queries, evaluate) rounds the loop body ran: every
execution of the body issues exactly one evaluateCompleteness call. -/
def evalRounds (evts : List LoopEvent) : Nat := (evts.filter isEvalCall).length

/-- Is some search call issued with an iteration index above `k`? -/
def hasSearchAfter (k : Nat) (evts : List LoopEvent) : Bool :=
  evts.any fun e => isSearchCall e && decide (k < eventIter e)

/-- Is any call at all issued with an iteration index above `k`? -/
def hasEventAfter (k : Nat) (evts : List LoopEvent) : Bool :=
  evts.any fun e => decide (k < eventIter e)

/-- An oracle that declares the evidence complete at once. -/
def alwaysCompleteOracle : LoopOracle :=
  ⟨fun _ _ => Except.ok ("text", [⟨"u", "t"⟩]),
   fun _ => Except.ok ⟨true, [], "done"⟩,
   fun _ => Except.ok []⟩

/-- An oracle whose evaluation is always incomplete and whose refinement
returns no queries. -/
def incompleteEmptyRefineOracle : LoopOracle :=
  ⟨fun _ _ => Except.ok ("text", []),
   fun _ => Except.ok ⟨false, ["q"], "more"⟩,
   fun _ => Except.ok []⟩

/-! ## JSON fence stripping (geminiService.ts, parseJson)
`jsonString.replace(/```json/g, '').replace(/```/g, '').trim()` followed by
`JSON.parse` inside a try/catch that returns null on failure. -/

/-- The backtick character (code point 96). -/
def backtick : Char := Char.ofNat 96

/-- JS `str.replace(/lit/g, repl)` for a literal pattern: scan left to right,
replacing every non-overlapping occurrence. -/
def replaceList (pat repl : List Char) : List Char → List Char
  | [] => []
  | c :: cs =>
      if pat ≠ [] ∧ pat.isPrefixOf (c :: cs) then
        repl ++ replaceList pat repl (cs.drop (pat.length - 1))
      else
        c :: replaceList pat repl cs
termination_by l => l.length
decreasing_by
  · simp only [List.length_drop, List.length_cons]
    omega
  · simp only [List.length_cons]
    omega

/-- The pattern of the first replace. -/
def fenceJson : List Char := "```json".toList

/-- The pattern of the second replace. -/
def fence : List Char := "```".toList

/-- The cleaning step of parseJson. -/
def cleanedJson (jsonString : List Char) : List Char :=
  trimList (replaceList fence [] (replaceList fenceJson [] jsonString))

/-- parseJson: strip the fences and trim, then JSON.parse (external; passed as
an oracle, `none` standing for both a parse exception and a null result). -/
def parseJson {α : Type} (parse : List Char → Option α)
    (jsonString : List Char) : Option α :=
  parse (cleanedJson jsonString)

/-- A tiny concrete JSON parser fragment: accepts exactly the text "1". -/
def witnessParse : List Char → Option Nat :=
  fun l => if l = "1".toList then some 1 else none

/-! ## Lemmas about the JS `Map` dedup -/

theorem insertOrReplace_keys (m : List (String × Source)) (k : String) (v : Source) :
    (insertOrReplace m k v).map Prod.fst =
      if k ∈ m.map Prod.fst then m.map Prod.fst else m.map Prod.fst ++ [k] := by
  by_cases h : k ∈ m.map Prod.fst
  · rw [insertOrReplace, if_pos h, if_pos h, List.map_map]
    apply List.map_congr_left
    intro p _
    by_cases hp : p.1 = k
    · simp [Function.comp, hp]
    · simp [Function.comp, hp]
  · rw [insertOrReplace, if_neg h, if_neg h]
    simp

theorem insertOrReplace_keys_nodup {m : List (String × Source)} {k : String}
    {v : Source} (h : (m.map Prod.fst).Nodup) :
    ((insertOrReplace m k v).map Prod.fst).Nodup := by
  rw [insertOrReplace_keys]
  by_cases hk : k ∈ m.map Prod.fst
  · simpa [hk] using h
  · simp [hk, List.nodup_append, h]

theorem mem_insertOrReplace {m : List (String × Source)} {k : String} {v : Source}
    {p : String × Source} (hp : p ∈ insertOrReplace m k v) : p ∈ m ∨ p = (k, v) := by
  unfold insertOrReplace at hp
  split at hp
  · obtain ⟨q, hq, hfq⟩ := List.mem_map.mp hp
    by_cases hqk : q.1 = k
    · right; rw [← hfq]; simp [hqk]
    · left; rw [← hfq]; simpa [hqk] using hq
  · rcases List.mem_append.mp hp with h | h
    · exact Or.inl h
    · right; simpa using h

theorem insertOrReplace_uri_inv {m : List (String × Source)} {k : String} {v : Source}
    (hm : ∀ p ∈ m, p.2.uri = p.1) (hv : v.uri = k) :
    ∀ p ∈ insertOrReplace m k v, p.2.uri = p.1 := by
  intro p hp
  rcases mem_insertOrReplace hp with h | h
  · exact hm p h
  · rw [h]; exact hv

theorem filter_map_replace_head (m : List (String × Source)) (k : String) (v : Source)
    (hk : k ∈ m.map Prod.fst) :
    ((m.map fun p => if p.1 = k then (k, v) else p).filter fun p => p.1 == k).head?
      = some (k, v) := by
  induction m with
  | nil => simp at hk
  | cons q m ih =>
      by_cases hq : q.1 = k
      · simp [hq]
      · have hk' : k ∈ m.map Prod.fst := by
          rw [List.map_cons] at hk
          rcases List.mem_cons.mp hk with h | h
          · exact absurd h.symm hq
          · exact h
        simpa [hq] using ih hk'

theorem filter_map_replace_ne (m : List (String × Source)) (k u : String) (v : Source)
    (hu : u ≠ k) :
    ((m.map fun p => if p.1 = k then (k, v) else p).filter fun p => p.1 == u)
      = m.filter fun p => p.1 == u := by
  induction m with
  | nil => rfl
  | cons q m ih =>
      by_cases hq : q.1 = k
      · simp [hq, ih, Ne.symm hu]
      · by_cases hqu : q.1 = u <;> simp [hq, hqu, ih, hu]

theorem lookupUri_insertOrReplace (m : List (String × Source)) (k u : String)
    (v : Source) :
    lookupUri (insertOrReplace m k v) u = if u = k then some v else lookupUri m u := by
  by_cases hk : k ∈ m.map Prod.fst
  · rw [insertOrReplace, if_pos hk]
    by_cases hu : u = k
    · subst hu
      rw [if_pos rfl, lookupUri, filter_map_replace_head m u v hk]
      rfl
    · rw [if_neg hu, lookupUri, lookupUri, filter_map_replace_ne m k u v hu]
  · rw [insertOrReplace, if_neg hk]
    by_cases hu : u = k
    · subst hu
      have hf : (m.filter fun p => p.1 == u) = [] := by
        rw [List.filter_eq_nil_iff]
        intro p hp
        simp only [beq_iff_eq]
        intro hpu
        exact hk (List.mem_map.mpr ⟨p, hp, hpu⟩)
      rw [if_pos rfl, lookupUri, List.filter_append, hf]
      simp
    · rw [if_neg hu, lookupUri, lookupUri, List.filter_append]
      have h1 : ([((k, v) : String × Source)].filter fun p => p.1 == u) = [] := by
        simp [Ne.symm hu]
      rw [h1, List.append_nil]

theorem toJsMap_concat (l : List Source) (s : Source) :
    toJsMap (l ++ [s]) = insertOrReplace (toJsMap l) s.uri s := by
  unfold toJsMap
  rw [List.foldl_append]
  rfl

theorem toJsMap_keys_nodup (l : List Source) : ((toJsMap l).map Prod.fst).Nodup := by
  induction l using List.reverseRecOn with
  | nil => simp [toJsMap]
  | append_singleton l s ih =>
      rw [toJsMap_concat]
      exact insertOrReplace_keys_nodup ih

theorem toJsMap_uri_inv (l : List Source) : ∀ p ∈ toJsMap l, p.2.uri = p.1 := by
  induction l using List.reverseRecOn with
  | nil => intro p hp; simp [toJsMap] at hp
  | append_singleton l s ih =>
      rw [toJsMap_concat]
      exact insertOrReplace_uri_inv ih rfl

theorem toJsMap_snd_mem (l : List Source) : ∀ p ∈ toJsMap l, p.2 ∈ l := by
  induction l using List.reverseRecOn with
  | nil => intro p hp; simp [toJsMap] at hp
  | append_singleton l s ih =>
      intro p hp
      rw [toJsMap_concat] at hp
      rcases mem_insertOrReplace hp with h | h
      · exact List.mem_append.mpr (Or.inl (ih p h))
      · rw [h]; simp

theorem lookupUri_toJsMap (l : List Source) (u : String) :
    lookupUri (toJsMap l) u = (l.filter fun t => t.uri == u).getLast? := by
  induction l using List.reverseRecOn with
  | nil => rfl
  | append_singleton l s ih =>
      rw [toJsMap_concat, lookupUri_insertOrReplace, List.filter_append]
      by_cases hu : u = s.uri
      · rw [if_pos hu]
        have h1 : ([s].filter fun t => t.uri == u) = [s] := by simp [hu]
        rw [h1, List.getLast?_concat]
      · rw [if_neg hu]
        have hne : s.uri ≠ u := fun h => hu h.symm
        have h1 : ([s].filter fun t => t.uri == u) = [] := by simp [hne]
        rw [h1, List.append_nil, ih]

theorem lookupUri_of_mem (m : List (String × Source)) (p : String × Source)
    (hp : p ∈ m) (hnd : (m.map Prod.fst).Nodup) : lookupUri m p.1 = some p.2 := by
  induction m with
  | nil => simp at hp
  | cons q m ih =>
      rw [List.map_cons, List.nodup_cons] at hnd
      rcases List.mem_cons.mp hp with h | h
      · subst h
        simp [lookupUri]
      · have hq : (q.1 == p.1) = false := by
          simp only [beq_eq_false_iff_ne, ne_eq]
          intro hcontra
          exact hnd.1 (hcontra ▸ List.mem_map.mpr ⟨p, h, rfl⟩)
        rw [lookupUri, List.filter_cons, hq]
        exact ih h hnd.2

/-! ## The dedup properties themselves -/

theorem dedupByUri_subset (l : List Source) : ∀ s ∈ dedupByUri l, s ∈ l := by
  intro s hs
  rcases List.mem_map.mp hs with ⟨p, hp, hps⟩
  exact hps ▸ toJsMap_snd_mem l p hp

theorem dedupByUri_uris_nodup (l : List Source) :
    ((dedupByUri l).map Source.uri).Nodup := by
  unfold dedupByUri
  rw [List.map_map]
  have h : (toJsMap l).map (Source.uri ∘ Prod.snd) = (toJsMap l).map Prod.fst := by
    apply List.map_congr_left
    intro p hp
    exact toJsMap_uri_inv l p hp
  rw [h]
  exact toJsMap_keys_nodup l

theorem dedupByUri_lastWriteWins (l : List Source) :
    ∀ s ∈ dedupByUri l, (l.filter fun t => t.uri == s.uri).getLast? = some s := by
  intro s hs
  rcases List.mem_map.mp hs with ⟨p, hp, hps⟩
  have h1 : lookupUri (toJsMap l) p.1 = some p.2 :=
    lookupUri_of_mem (toJsMap l) p hp (toJsMap_keys_nodup l)
  rw [lookupUri_toJsMap] at h1
  have h3 : p.2.uri = p.1 := toJsMap_uri_inv l p hp
  simp only [← hps, h3]
  exact h1

theorem dedupByUri_complete (l : List Source) :
    ∀ u ∈ l.map Source.uri, ∃ s ∈ dedupByUri l, s.uri = u := by
  intro u hu
  rcases List.mem_map.mp hu with ⟨x, hx, hxu⟩
  have hne : (l.filter fun t => t.uri == u) ≠ [] := by
    intro hcontra
    have hmem : x ∈ l.filter fun t => t.uri == u :=
      List.mem_filter.mpr ⟨hx, by simp [hxu]⟩
    rw [hcontra] at hmem
    simp at hmem
  have h1 : lookupUri (toJsMap l) u = (l.filter fun t => t.uri == u).getLast? :=
    lookupUri_toJsMap l u
  unfold lookupUri at h1
  rcases hf : (toJsMap l).filter (fun p => p.1 == u) with _ | ⟨p, rest⟩
  · rw [hf] at h1
    rcases hy : (l.filter fun t => t.uri == u).getLast? with _ | y
    · exact absurd (List.getLast?_eq_none_iff.mp hy) hne
    · rw [hy] at h1
      simp at h1
  · have hpmem : p ∈ (toJsMap l).filter (fun p => p.1 == u) := by
      rw [hf]; exact List.mem_cons_self _ _
    have hp := List.mem_filter.mp hpmem
    refine ⟨p.2, List.mem_map.mpr ⟨p, hp.1, rfl⟩, ?_⟩
    rw [toJsMap_uri_inv l p hp.1]
    exact beq_iff_eq.mp hp.2

theorem jsOrElse_ne_empty (x : Option String) (d : String) (hd : d ≠ "") :
    jsOrElse x d ≠ "" := by
  cases x with
  | none => exact hd
  | some s =>
      by_cases hs : s = ""
      · rw [jsOrElse, if_pos hs]; exact hd
      · rw [jsOrElse, if_neg hs]; exact hs

/-! ## Claim theorems: chat flow, planner, search sources -/

/-- C6: invoking chat send while a prior send is pending (isLoading true) is a
no-op: the state (transcript and typed input) is unchanged and no remote call
is issued. -/
theorem handleSend_pending_noop (hasChat : Bool) (outcome : SendOutcome)
    (st : ChatState) (h : st.isLoading = true) :
    handleSend hasChat outcome st = (st, false) := by
  unfold handleSend
  rw [if_pos (Or.inr (Or.inl h))]

theorem handleSend_pending_noop_witness :
    handleSend true (SendOutcome.success "ok") ⟨[], "q", true⟩
      = (⟨[], "q", true⟩, false) :=
  handleSend_pending_noop true (SendOutcome.success "ok") ⟨[], "q", true⟩ rfl

/-- C5: a failure of the remote send never propagates an error to the caller:
the transcript gets the fixed apology fallback appended as a model message and
the loading flag is cleared. -/
theorem handleSend_failure_appends_fallback (hasChat : Bool) (st : ChatState)
    (h1 : jsTrim st.input ≠ "") (h2 : st.isLoading = false) (h3 : hasChat = true) :
    (handleSend hasChat SendOutcome.failure st).1.history
        = st.history ++ [⟨Role.user, st.input⟩, ⟨Role.model, fallbackReply⟩]
    ∧ (handleSend hasChat SendOutcome.failure st).1.isLoading = false := by
  subst h3
  unfold handleSend
  rw [if_neg (by simp [h1, h2])]
  simp

theorem handleSend_failure_appends_fallback_witness :
    (jsTrim "hi" ≠ "")
    ∧ (handleSend true SendOutcome.failure ⟨[], "hi", false⟩).1.history
        = [⟨Role.user, "hi"⟩, ⟨Role.model, fallbackReply⟩]
    ∧ (handleSend true SendOutcome.failure ⟨[], "hi", false⟩).1.isLoading = false := by
  have h := handleSend_failure_appends_fallback true ⟨[], "hi", false⟩
    (by decide) rfl rfl
  exact ⟨by decide, by simpa using h.1, h.2⟩

/-- C7 counterexample: a parsed response whose plan field is present but empty
is a successful generateResearchPlan call returning 0 items, outside 3..5 —
the code performs no length validation. -/
theorem generateResearchPlan_no_length_check :
    generateResearchPlan (some ⟨some []⟩) = Except.ok ([] : List ResearchPlanItem)
    ∧ ¬(3 ≤ ([] : List ResearchPlanItem).length
          ∧ ([] : List ResearchPlanItem).length ≤ 5) :=
  ⟨rfl, by decide⟩

/-- C7 (amended): a successful generateResearchPlan call returns exactly the
plan array of the parsed response, of whatever length it has; the 3–5 range is
only requested in the prompt, never validated. -/
theorem generateResearchPlan_ok_iff (result : Option PlanResponse)
    (plan : List ResearchPlanItem) :
    generateResearchPlan result = Except.ok plan ↔ result = some ⟨some plan⟩ := by
  cases result with
  | none => simp [generateResearchPlan]
  | some r =>
      cases r with
      | mk p =>
          cases p with
          | none => simp [generateResearchPlan]
          | some q => simp [generateResearchPlan]

/-- C10: every Source returned by searchWithGrounding has a non-empty uri and a
non-empty title: chunks with a missing or empty uri are filtered out, and a
missing title is replaced by the default "Untitled Source". -/
theorem searchWithGrounding_source_invariants (text : String)
    (rawChunks : List GroundingChunk) :
    (∀ s ∈ (searchWithGrounding text rawChunks).2, s.uri ≠ "" ∧ s.title ≠ "")
    ∧ ∀ chunk : GroundingChunk, chunk.web.bind WebInfo.title = none →
        (sourceOfChunk chunk).title = "Untitled Source" := by
  constructor
  · intro s hs
    simp only [searchWithGrounding] at hs
    have hmem := List.mem_filter.mp (dedupByUri_subset _ s hs)
    constructor
    · simpa using hmem.2
    · rcases List.mem_map.mp hmem.1 with ⟨c, _, hc⟩
      rw [← hc]
      exact jsOrElse_ne_empty _ _ (by decide)
  · intro chunk h
    simp [sourceOfChunk, h, jsOrElse]

theorem searchWithGrounding_source_invariants_witness :
    ((⟨"http", "Untitled Source"⟩ : Source)
        ∈ (searchWithGrounding "t" [⟨some ⟨some "http", none⟩⟩]).2)
    ∧ (("http" : String) ≠ "" ∧ ("Untitled Source" : String) ≠ "")
    ∧ (sourceOfChunk ⟨some ⟨some "http", none⟩⟩).title = "Untitled Source" := by
  refine ⟨by decide, ?_, ?_⟩
  · exact (searchWithGrounding_source_invariants "t" [⟨some ⟨some "http", none⟩⟩]).1
      ⟨"http", "Untitled Source"⟩ (by decide)
  · exact (searchWithGrounding_source_invariants "t" [⟨some ⟨some "http", none⟩⟩]).2
      ⟨some ⟨some "http", none⟩⟩ rfl

/-! ### Basic step lemmas -/

theorem recordSearch_events (st : LoopState) (i : Nat) (q : String)
    (out : Except String (String × List Source)) :
    (recordSearch st i q out).events = st.events ++ [LoopEvent.searchCall i q] := by
  cases out with
  | error e => rfl
  | ok p => cases p with | mk text ns => rfl

theorem recordSearch_sources_inv (st : LoopState) (i : Nat) (q : String)
    (out : Except String (String × List Source))
    (h : st.sources = dedupByUri st.accumulatedSources) :
    (recordSearch st i q out).sources
      = dedupByUri (recordSearch st i q out).accumulatedSources := by
  cases out with
  | error e => exact h
  | ok p => cases p with | mk text ns => rfl

theorem recordSearch_acc (st : LoopState) (i : Nat) (q : String)
    (out : Except String (String × List Source)) :
    ∃ t, (recordSearch st i q out).accumulatedResults.data
      = st.accumulatedResults.data ++ t := by
  cases out with
  | error e => exact ⟨[], by simp [recordSearch]⟩
  | ok p =>
      cases p with
      | mk text ns =>
          refine ⟨("\n\n--- Query: " ++ q ++ " ---\n" ++ text).data, ?_⟩
          simp [recordSearch]

theorem runQueries_events (o : LoopOracle) (i : Nat) :
    ∀ (qs : List String) (st : LoopState), ∃ added,
      (runQueries o i qs st).events = st.events ++ added
      ∧ ∀ e ∈ added, ∃ q, e = LoopEvent.searchCall i q := by
  intro qs
  induction qs with
  | nil => intro st; exact ⟨[], by simp [runQueries], by simp⟩
  | cons q qs ih =>
      intro st
      obtain ⟨added, h1, h2⟩ := ih (recordSearch st i q (o.searchResult i q))
      refine ⟨LoopEvent.searchCall i q :: added, ?_, ?_⟩
      · simp only [runQueries]
        rw [h1, recordSearch_events]
        simp
      · intro e he
        rcases List.mem_cons.mp he with h | h
        · exact ⟨q, h⟩
        · exact h2 e h

theorem runQueries_preserves (P : LoopState → Prop)
    (hsearch : ∀ st i q out, P st → P (recordSearch st i q out))
    (o : LoopOracle) (i : Nat) :
    ∀ (qs : List String) (st : LoopState), P st → P (runQueries o i qs st) := by
  intro qs
  induction qs with
  | nil => intro st h; simpa [runQueries] using h
  | cons q qs ih =>
      intro st h
      simp only [runQueries]
      exact ih _ (hsearch st i q _ h)

/-- Every branch of the loop body only ever appends to the events trace and
rewrites nothing else but via recordSearch; properties preserved by both kinds
of step are loop invariants. -/
theorem runLoopAux_preserves (o : LoopOracle) (P : LoopState → Prop)
    (hsearch : ∀ st i q out, P st → P (recordSearch st i q out))
    (hevents : ∀ st E, P st → P { st with events := st.events ++ E }) :
    ∀ (fuel : Nat) (queries : List String) (st : LoopState) (i : Nat),
      P st → P (runLoopAux o fuel queries st i).1 := by
  intro fuel
  induction fuel with
  | zero => intro queries st i h; simpa [runLoopAux] using h
  | succ fuel ih =>
      intro queries st i h
      simp only [runLoopAux]
      by_cases hguard : MAX_ITERATIONS ≤ i
      · rw [if_pos hguard]; exact h
      · rw [if_neg hguard]
        have h1 : P (runQueries o i queries st) :=
          runQueries_preserves P hsearch o i queries st h
        have h2 : P { runQueries o i queries st with
            events := (runQueries o i queries st).events ++ [LoopEvent.evalCall i] } :=
          hevents _ _ h1
        cases hEval : o.evalResult i with
        | error e => exact h2
        | ok ev =>
            dsimp only
            by_cases hc : ev.is_complete = true
            · rw [if_pos hc]; exact h2
            · rw [if_neg hc]
              by_cases hmax : i = MAX_ITERATIONS - 1
              · rw [if_pos hmax]; exact h2
              · rw [if_neg hmax]
                cases hRef : o.refineResult i with
                | error e => exact hevents _ _ h2
                | ok newQueries =>
                    dsimp only
                    by_cases hnil : newQueries = []
                    · rw [if_pos hnil]; exact hevents _ _ h2
                    · rw [if_neg hnil]; exact ih _ _ _ (hevents _ _ h2)

/-! ### evalRounds arithmetic -/

theorem evalRounds_append (a b : List LoopEvent) :
    evalRounds (a ++ b) = evalRounds a + evalRounds b := by
  unfold evalRounds
  rw [List.filter_append, List.length_append]

theorem evalRounds_of_searchCalls (E : List LoopEvent)
    (h : ∀ e ∈ E, ∃ q, e = LoopEvent.searchCall i q) : evalRounds E = 0 := by
  unfold evalRounds
  have hE : E.filter isEvalCall = [] := by
    rw [List.filter_eq_nil_iff]
    intro e he
    obtain ⟨q, hq⟩ := h e he
    simp [hq, isEvalCall]
  rw [hE]
  rfl

theorem evalRounds_runQueries (o : LoopOracle) (i : Nat) (qs : List String)
    (st : LoopState) :
    evalRounds (runQueries o i qs st).events = evalRounds st.events := by
  obtain ⟨added, h1, h2⟩ := runQueries_events o i qs st
  rw [h1, evalRounds_append, evalRounds_of_searchCalls added h2]
  omega

theorem evalRounds_single_eval (i : Nat) : evalRounds [LoopEvent.evalCall i] = 1 := rfl

theorem evalRounds_single_refine (i : Nat) : evalRounds [LoopEvent.refineCall i] = 0 := rfl

theorem evalRounds_runLoopAux (o : LoopOracle) :
    ∀ (fuel : Nat) (queries : List String) (st : LoopState) (i : Nat),
      evalRounds (runLoopAux o fuel queries st i).1.events
        ≤ evalRounds st.events + fuel := by
  intro fuel
  induction fuel with
  | zero => intro queries st i; simp [runLoopAux]
  | succ fuel ih =>
      intro queries st i
      simp only [runLoopAux]
      by_cases hguard : MAX_ITERATIONS ≤ i
      · rw [if_pos hguard]
        exact Nat.le_add_right _ _
      · rw [if_neg hguard]
        have hq := evalRounds_runQueries o i queries st
        cases hEval : o.evalResult i with
        | error e =>
            simp only [evalRounds_append, hq, evalRounds_single_eval, evalRounds_single_refine]
            omega
        | ok ev =>
            dsimp only
            by_cases hc : ev.is_complete = true
            · rw [if_pos hc]
              simp only [evalRounds_append, hq, evalRounds_single_eval, evalRounds_single_refine]
              omega
            · rw [if_neg hc]
              by_cases hmax : i = MAX_ITERATIONS - 1
              · rw [if_pos hmax]
                simp only [evalRounds_append, hq, evalRounds_single_eval, evalRounds_single_refine]
                omega
              · rw [if_neg hmax]
                cases hRef : o.refineResult i with
                | error e =>
                    simp only [evalRounds_append, hq, evalRounds_single_eval, evalRounds_single_refine]
                    omega
                | ok newQueries =>
                    dsimp only
                    by_cases hnil : newQueries = []
                    · rw [if_pos hnil]
                      simp only [evalRounds_append, hq, evalRounds_single_eval, evalRounds_single_refine]
                      omega
                    · rw [if_neg hnil]
                      have hrec := ih (bilingualQueries newQueries)
                        { runQueries o i queries st with
                          events := ((runQueries o i queries st).events
                            ++ [LoopEvent.evalCall i]) ++ [LoopEvent.refineCall i] }
                        (i + 1)
                      calc evalRounds (runLoopAux o fuel (bilingualQueries newQueries)
                              { runQueries o i queries st with
                                events := ((runQueries o i queries st).events
                                  ++ [LoopEvent.evalCall i]) ++ [LoopEvent.refineCall i] }
                              (i + 1)).1.events
                          ≤ _ := hrec
                        _ ≤ evalRounds st.events + (fuel + 1) := by
                            simp only [evalRounds_append, hq, evalRounds_single_eval, evalRounds_single_refine]
                            omega

/-! ### Claim theorems about the loop -/

/-- C1: the iteration controller executes at most 3 rounds of (search all
queries, evaluate): the loop body — which issues exactly one evaluateCompleteness
call per execution — runs no more than 3 times, whatever the oracles return. -/
theorem runSearchAndEvaluateLoop_at_most_three_rounds (o : LoopOracle)
    (plan : List ResearchPlanItem) :
    evalRounds (runSearchAndEvaluateLoop o plan).1.events ≤ 3 := by
  have h := evalRounds_runLoopAux o MAX_ITERATIONS (planQueries plan) initState 0
  simpa [runSearchAndEvaluateLoop, initState, evalRounds, MAX_ITERATIONS] using h

/-- C2: the deduplicated source list exposed by the run is exactly the uri-dedup
of the accumulated search results, and for every accumulated list the dedup has
pairwise-distinct uris, keeps for each uri the last accumulated source with that
uri (last-write-wins, title included), and drops no uri. -/
theorem runSearchAndEvaluateLoop_sources_dedup (o : LoopOracle)
    (plan : List ResearchPlanItem) :
    ((runSearchAndEvaluateLoop o plan).1.sources
        = dedupByUri (runSearchAndEvaluateLoop o plan).1.accumulatedSources)
    ∧ ∀ l : List Source,
        ((dedupByUri l).map Source.uri).Nodup
        ∧ (∀ s ∈ dedupByUri l, (l.filter fun t => t.uri == s.uri).getLast? = some s)
        ∧ (∀ u ∈ l.map Source.uri, ∃ s ∈ dedupByUri l, s.uri = u) := by
  constructor
  · exact runLoopAux_preserves o
      (fun st => st.sources = dedupByUri st.accumulatedSources)
      (fun st i q out h => recordSearch_sources_inv st i q out h)
      (fun st E h => h)
      MAX_ITERATIONS (planQueries plan) initState 0 rfl
  · intro l
    exact ⟨dedupByUri_uris_nodup l, dedupByUri_lastWriteWins l, dedupByUri_complete l⟩

theorem runSearchAndEvaluateLoop_sources_dedup_witness :
    (⟨"u", "t2"⟩ : Source) ∈ dedupByUri [⟨"u", "t1"⟩, ⟨"u", "t2"⟩]
    ∧ (([⟨"u", "t1"⟩, ⟨"u", "t2"⟩] : List Source).filter
          fun t => t.uri == ("u" : String)).getLast? = some ⟨"u", "t2"⟩
    ∧ ∃ s ∈ dedupByUri [(⟨"u", "t1"⟩ : Source), ⟨"u", "t2"⟩], s.uri = "u" := by
  refine ⟨by decide, ?_, ?_⟩
  · exact ((runSearchAndEvaluateLoop_sources_dedup
      ⟨fun _ _ => Except.error "e", fun _ => Except.error "e", fun _ => Except.error "e"⟩
      []).2 [⟨"u", "t1"⟩, ⟨"u", "t2"⟩]).2.1 ⟨"u", "t2"⟩ (by decide)
  · exact ((runSearchAndEvaluateLoop_sources_dedup
      ⟨fun _ _ => Except.error "e", fun _ => Except.error "e", fun _ => Except.error "e"⟩
      []).2 [⟨"u", "t1"⟩, ⟨"u", "t2"⟩]).2.2 "u" (by decide)

/-- C8: across every step of a run the accumulated evidence blob only grows:
from any intermediate state, the final evidence extends the current one (it is
never truncated or rewritten), so its length is monotonically non-decreasing. -/
theorem runLoopAux_evidence_monotone (o : LoopOracle) (fuel : Nat)
    (queries : List String) (st : LoopState) (i : Nat) :
    st.accumulatedResults.length
        ≤ (runLoopAux o fuel queries st i).1.accumulatedResults.length
    ∧ ∃ t, (runLoopAux o fuel queries st i).1.accumulatedResults.data
        = st.accumulatedResults.data ++ t := by
  have h := runLoopAux_preserves o
      (fun st' => ∃ t, st'.accumulatedResults.data
        = st.accumulatedResults.data ++ t)
      (fun st' i' q out hp => by
        obtain ⟨t, ht⟩ := hp
        obtain ⟨u, hu⟩ := recordSearch_acc st' i' q out
        exact ⟨t ++ u, by rw [hu, ht, List.append_assoc]⟩)
      (fun st' E hp => hp)
      fuel queries st i ⟨[], by simp⟩
  refine ⟨?_, h⟩
  obtain ⟨t, ht⟩ := h
  have hlen : (runLoopAux o fuel queries st i).1.accumulatedResults.data.length
      = st.accumulatedResults.data.length + t.length := by
    rw [ht, List.length_append]
  calc st.accumulatedResults.length
      = st.accumulatedResults.data.length := rfl
    _ ≤ (runLoopAux o fuel queries st i).1.accumulatedResults.data.length := by omega
    _ = (runLoopAux o fuel queries st i).1.accumulatedResults.length := rfl

/-! ### Temporal trace lemmas (for C3 and C4) -/

theorem hasSearchAfter_eq_false_iff (k : Nat) (evts : List LoopEvent) :
    hasSearchAfter k evts = false ↔
      ∀ e ∈ evts, isSearchCall e = true → eventIter e ≤ k := by
  unfold hasSearchAfter
  rw [List.any_eq_false]
  simp only [Bool.and_eq_true, decide_eq_true_eq, not_and, not_lt]

theorem hasEventAfter_eq_false_iff (k : Nat) (evts : List LoopEvent) :
    hasEventAfter k evts = false ↔ ∀ e ∈ evts, eventIter e ≤ k := by
  unfold hasEventAfter
  rw [List.any_eq_false]
  simp only [decide_eq_true_eq, not_lt]

theorem search_bound_append_nonsearch {k : Nat} {evts : List LoopEvent}
    {e' : LoopEvent} (h : ∀ e ∈ evts, isSearchCall e = true → eventIter e ≤ k)
    (hns : isSearchCall e' = false) :
    ∀ e ∈ evts ++ [e'], isSearchCall e = true → eventIter e ≤ k := by
  intro e he hs
  rcases List.mem_append.mp he with hh | hh
  · exact h e hh hs
  · rw [List.mem_singleton.mp hh] at hs
    rw [hns] at hs
    cases hs

theorem search_bound_runQueries (o : LoopOracle) (queries : List String)
    (st : LoopState) {i k : Nat} (hik : i ≤ k)
    (hst : ∀ e ∈ st.events, isSearchCall e = true → eventIter e ≤ k) :
    ∀ e ∈ (runQueries o i queries st).events,
      isSearchCall e = true → eventIter e ≤ k := by
  intro e he hs
  obtain ⟨added, hadd, hq⟩ := runQueries_events o i queries st
  rw [hadd] at he
  rcases List.mem_append.mp he with h | h
  · exact hst e h hs
  · obtain ⟨q, rfl⟩ := hq e h
    simpa [eventIter] using hik

theorem runLoopAux_no_search_after_complete (o : LoopOracle) (k : Nat)
    (ev : Evaluation) (hk : o.evalResult k = Except.ok ev)
    (hc : ev.is_complete = true) :
    ∀ (fuel : Nat) (queries : List String) (st : LoopState) (i : Nat),
      i ≤ k →
      (∀ e ∈ st.events, isSearchCall e = true → eventIter e ≤ k) →
      ∀ e ∈ (runLoopAux o fuel queries st i).1.events,
        isSearchCall e = true → eventIter e ≤ k := by
  intro fuel
  induction fuel with
  | zero => intro queries st i hik hst; simpa [runLoopAux] using hst
  | succ fuel ih =>
      intro queries st i hik hst
      simp only [runLoopAux]
      by_cases hguard : MAX_ITERATIONS ≤ i
      · rw [if_pos hguard]; exact hst
      · rw [if_neg hguard]
        have hst1 := search_bound_runQueries o queries st hik hst
        have hst2 := search_bound_append_nonsearch hst1 (rfl : isSearchCall (LoopEvent.evalCall i) = false)
        by_cases hik' : i = k
        · subst hik'
          rw [hk]
          dsimp only
          rw [if_pos hc]
          exact hst2
        · cases hEval : o.evalResult i with
          | error e => exact hst2
          | ok ev' =>
              dsimp only
              by_cases hc' : ev'.is_complete = true
              · rw [if_pos hc']; exact hst2
              · rw [if_neg hc']
                by_cases hmax : i = MAX_ITERATIONS - 1
                · rw [if_pos hmax]; exact hst2
                · rw [if_neg hmax]
                  have hst3 := search_bound_append_nonsearch hst2
                    (rfl : isSearchCall (LoopEvent.refineCall i) = false)
                  cases hRef : o.refineResult i with
                  | error e => exact hst3
                  | ok newQueries =>
                      dsimp only
                      by_cases hnil : newQueries = []
                      · rw [if_pos hnil]; exact hst3
                      · rw [if_neg hnil]
                        exact ih _ _ _
                          (Nat.succ_le_of_lt (Nat.lt_of_le_of_ne hik hik')) hst3

/-- C3: if evaluateCompleteness reports is_complete = true at iteration k, no
search call is issued after iteration k — the loop stops and the run proceeds
to synthesis. -/
theorem runSearchAndEvaluateLoop_stops_on_complete (o : LoopOracle)
    (plan : List ResearchPlanItem) (k : Nat) (ev : Evaluation)
    (hk : o.evalResult k = Except.ok ev) (hc : ev.is_complete = true) :
    hasSearchAfter k (runSearchAndEvaluateLoop o plan).1.events = false := by
  rw [hasSearchAfter_eq_false_iff]
  exact runLoopAux_no_search_after_complete o k ev hk hc MAX_ITERATIONS
    (planQueries plan) initState 0 (Nat.zero_le k)
    (by intro e he; simp [initState] at he)

theorem runSearchAndEvaluateLoop_stops_on_complete_witness :
    alwaysCompleteOracle.evalResult 0 = Except.ok ⟨true, [], "done"⟩
    ∧ (⟨true, [], "done"⟩ : Evaluation).is_complete = true
    ∧ hasSearchAfter 0
        (runSearchAndEvaluateLoop alwaysCompleteOracle [⟨"e", "j"⟩]).1.events
        = false :=
  ⟨rfl, rfl, runSearchAndEvaluateLoop_stops_on_complete alwaysCompleteOracle
    [⟨"e", "j"⟩] 0 ⟨true, [], "done"⟩ rfl rfl⟩

theorem refineCall_not_mem_runQueries (o : LoopOracle) (i : Nat)
    (qs : List String) (st : LoopState) {j : Nat}
    (h : LoopEvent.refineCall j ∈ (runQueries o i qs st).events) :
    LoopEvent.refineCall j ∈ st.events := by
  obtain ⟨added, hadd, hq⟩ := runQueries_events o i qs st
  rw [hadd] at h
  rcases List.mem_append.mp h with h | h
  · exact h
  · obtain ⟨q, hEq⟩ := hq _ h
    exact absurd hEq (by simp)

theorem runLoopAux_refine_preconds (o : LoopOracle) :
    ∀ (fuel : Nat) (queries : List String) (st : LoopState) (i : Nat),
      (∀ j, LoopEvent.refineCall j ∈ st.events →
        (∃ ev, o.evalResult j = Except.ok ev ∧ ev.is_complete = false)
        ∧ j + 1 < MAX_ITERATIONS) →
      ∀ j, LoopEvent.refineCall j ∈ (runLoopAux o fuel queries st i).1.events →
        (∃ ev, o.evalResult j = Except.ok ev ∧ ev.is_complete = false)
        ∧ j + 1 < MAX_ITERATIONS := by
  intro fuel
  induction fuel with
  | zero => intro queries st i hst; simpa [runLoopAux] using hst
  | succ fuel ih =>
      intro queries st i hst
      simp only [runLoopAux]
      by_cases hguard : MAX_ITERATIONS ≤ i
      · rw [if_pos hguard]; exact hst
      · rw [if_neg hguard]
        have hst2 : ∀ j, LoopEvent.refineCall j ∈
            (runQueries o i queries st).events ++ [LoopEvent.evalCall i] →
            (∃ ev, o.evalResult j = Except.ok ev ∧ ev.is_complete = false)
            ∧ j + 1 < MAX_ITERATIONS := by
          intro j hj
          rcases List.mem_append.mp hj with h | h
          · exact hst j (refineCall_not_mem_runQueries o i queries st h)
          · exact absurd (List.mem_singleton.mp h) (by simp)
        cases hEval : o.evalResult i with
        | error e => exact hst2
        | ok ev' =>
            dsimp only
            by_cases hc' : ev'.is_complete = true
            · rw [if_pos hc']; exact hst2
            · rw [if_neg hc']
              by_cases hmax : i = MAX_ITERATIONS - 1
              · rw [if_pos hmax]; exact hst2
              · rw [if_neg hmax]
                have hprei : (∃ ev, o.evalResult i = Except.ok ev
                    ∧ ev.is_complete = false) ∧ i + 1 < MAX_ITERATIONS := by
                  refine ⟨⟨ev', hEval, by simpa using hc'⟩, ?_⟩
                  have hM : MAX_ITERATIONS = 3 := rfl
                  omega
                have hst3 : ∀ j, LoopEvent.refineCall j ∈
                    ((runQueries o i queries st).events ++ [LoopEvent.evalCall i])
                      ++ [LoopEvent.refineCall i] →
                    (∃ ev, o.evalResult j = Except.ok ev ∧ ev.is_complete = false)
                    ∧ j + 1 < MAX_ITERATIONS := by
                  intro j hj
                  rcases List.mem_append.mp hj with h | h
                  · exact hst2 j h
                  · have hji : j = i := by simpa using List.mem_singleton.mp h
                    rw [hji]
                    exact hprei
                cases hRef : o.refineResult i with
                | error e => exact hst3
                | ok newQueries =>
                    dsimp only
                    by_cases hnil : newQueries = []
                    · rw [if_pos hnil]; exact hst3
                    · rw [if_neg hnil]
                      exact ih _ _ _ hst3

theorem not_refineCall_mem_stage2 (o : LoopOracle) (queries : List String)
    (st : LoopState) {i k : Nat} (hik : i ≤ k)
    (hst : ∀ e ∈ st.events, eventIter e < i) :
    LoopEvent.refineCall k ∉
      (runQueries o i queries st).events ++ [LoopEvent.evalCall i] := by
  intro hmem
  rcases List.mem_append.mp hmem with h | h
  · obtain ⟨added, hadd, hq⟩ := runQueries_events o i queries st
    rw [hadd] at h
    rcases List.mem_append.mp h with h | h
    · have hlt : eventIter (LoopEvent.refineCall k) < i := hst _ h
      simp [eventIter] at hlt
      omega
    · obtain ⟨q, hEq⟩ := hq _ h
      exact absurd hEq (by simp)
  · exact absurd (List.mem_singleton.mp h) (by simp)

theorem not_refineCall_mem_stage3 (o : LoopOracle) (queries : List String)
    (st : LoopState) {i k : Nat} (hik : i ≤ k) (hik' : i ≠ k)
    (hst : ∀ e ∈ st.events, eventIter e < i) :
    LoopEvent.refineCall k ∉
      ((runQueries o i queries st).events ++ [LoopEvent.evalCall i])
        ++ [LoopEvent.refineCall i] := by
  intro hmem
  rcases List.mem_append.mp hmem with h | h
  · exact not_refineCall_mem_stage2 o queries st hik hst h
  · have hki : k = i := by simpa using List.mem_singleton.mp h
    exact hik' hki.symm

theorem eventIter_le_stage3 (o : LoopOracle) (queries : List String)
    (st : LoopState) {i k : Nat} (hik : i ≤ k)
    (hst : ∀ e ∈ st.events, eventIter e < i) :
    ∀ e ∈ ((runQueries o i queries st).events ++ [LoopEvent.evalCall i])
        ++ [LoopEvent.refineCall i], eventIter e ≤ k := by
  intro e he
  rcases List.mem_append.mp he with h | h
  · rcases List.mem_append.mp h with h | h
    · obtain ⟨added, hadd, hq⟩ := runQueries_events o i queries st
      rw [hadd] at h
      rcases List.mem_append.mp h with h | h
      · exact Nat.le_of_lt (Nat.lt_of_lt_of_le (hst _ h) hik)
      · obtain ⟨q, rfl⟩ := hq _ h
        simpa [eventIter] using hik
    · rw [List.mem_singleton.mp h]
      simpa [eventIter] using hik
  · rw [List.mem_singleton.mp h]
    simpa [eventIter] using hik

theorem eventIter_lt_stage3 (o : LoopOracle) (queries : List String)
    (st : LoopState) {i : Nat} (hst : ∀ e ∈ st.events, eventIter e < i) :
    ∀ e ∈ ((runQueries o i queries st).events ++ [LoopEvent.evalCall i])
        ++ [LoopEvent.refineCall i], eventIter e < i + 1 := by
  intro e he
  exact Nat.lt_succ_of_le (eventIter_le_stage3 o queries st (Nat.le_refl i) hst e he)

theorem runLoopAux_refine_empty_stops (o : LoopOracle) (k : Nat)
    (hk : o.refineResult k = Except.ok []) :
    ∀ (fuel : Nat) (queries : List String) (st : LoopState) (i : Nat),
      i ≤ k →
      (∀ e ∈ st.events, eventIter e < i) →
      LoopEvent.refineCall k ∈ (runLoopAux o fuel queries st i).1.events →
      (∀ e ∈ (runLoopAux o fuel queries st i).1.events, eventIter e ≤ k)
      ∧ (runLoopAux o fuel queries st i).2 = none := by
  intro fuel
  induction fuel with
  | zero =>
      intro queries st i hik hst hmem
      simp only [runLoopAux] at hmem
      exact absurd (by simpa [eventIter] using hst _ hmem) (Nat.not_lt.mpr hik)
  | succ fuel ih =>
      intro queries st i hik hst
      simp only [runLoopAux]
      by_cases hguard : MAX_ITERATIONS ≤ i
      · rw [if_pos hguard]
        intro hmem
        exact absurd (by simpa [eventIter] using hst _ hmem) (Nat.not_lt.mpr hik)
      · rw [if_neg hguard]
        cases hEval : o.evalResult i with
        | error e =>
            intro hmem
            exact absurd hmem (not_refineCall_mem_stage2 o queries st hik hst)
        | ok ev' =>
            dsimp only
            by_cases hc' : ev'.is_complete = true
            · rw [if_pos hc']
              intro hmem
              exact absurd hmem (not_refineCall_mem_stage2 o queries st hik hst)
            · rw [if_neg hc']
              by_cases hmax : i = MAX_ITERATIONS - 1
              · rw [if_pos hmax]
                intro hmem
                exact absurd hmem (not_refineCall_mem_stage2 o queries st hik hst)
              · rw [if_neg hmax]
                by_cases hik' : i = k
                · subst hik'
                  rw [hk]
                  dsimp only
                  rw [if_pos rfl]
                  intro _
                  exact ⟨eventIter_le_stage3 o queries st (Nat.le_refl i) hst, rfl⟩
                · cases hRef : o.refineResult i with
                  | error e =>
                      intro hmem
                      exact absurd hmem
                        (not_refineCall_mem_stage3 o queries st hik hik' hst)
                  | ok newQueries =>
                      dsimp only
                      by_cases hnil : newQueries = []
                      · rw [if_pos hnil]
                        intro hmem
                        exact absurd hmem
                          (not_refineCall_mem_stage3 o queries st hik hik' hst)
                      · rw [if_neg hnil]
                        exact ih _ _ _
                          (Nat.succ_le_of_lt (Nat.lt_of_le_of_ne hik hik'))
                          (eventIter_lt_stage3 o queries st hst)

/-- C4: refineSearchQueries is called at iteration i only when that iteration's
evaluation succeeded with is_complete = false and the iteration budget is not
exhausted (never on the final iteration); and when it returns an empty list the
loop issues no further call of any kind and terminates normally (the run goes
straight to synthesis). -/
theorem refineCall_conditions_and_empty_stops (o : LoopOracle)
    (plan : List ResearchPlanItem) (i : Nat)
    (hmem : LoopEvent.refineCall i ∈ (runSearchAndEvaluateLoop o plan).1.events) :
    ((∃ ev, o.evalResult i = Except.ok ev ∧ ev.is_complete = false)
      ∧ i + 1 < MAX_ITERATIONS)
    ∧ (o.refineResult i = Except.ok [] →
        hasEventAfter i (runSearchAndEvaluateLoop o plan).1.events = false
        ∧ (runSearchAndEvaluateLoop o plan).2 = none) := by
  constructor
  · exact runLoopAux_refine_preconds o MAX_ITERATIONS (planQueries plan) initState 0
      (by intro j hj; simp [initState] at hj) i hmem
  · intro hre
    have h := runLoopAux_refine_empty_stops o i hre MAX_ITERATIONS
      (planQueries plan) initState 0 (Nat.zero_le i)
      (by intro e he; simp [initState] at he) hmem
    exact ⟨(hasEventAfter_eq_false_iff i _).mpr h.1, h.2⟩

theorem refineCall_conditions_and_empty_stops_witness :
    LoopEvent.refineCall 0
        ∈ (runSearchAndEvaluateLoop incompleteEmptyRefineOracle [⟨"e", "j"⟩]).1.events
    ∧ ((∃ ev, incompleteEmptyRefineOracle.evalResult 0 = Except.ok ev
          ∧ ev.is_complete = false)
        ∧ 0 + 1 < MAX_ITERATIONS)
    ∧ (hasEventAfter 0
          (runSearchAndEvaluateLoop incompleteEmptyRefineOracle [⟨"e", "j"⟩]).1.events
          = false
        ∧ (runSearchAndEvaluateLoop incompleteEmptyRefineOracle [⟨"e", "j"⟩]).2
          = none) := by
  have hmem : LoopEvent.refineCall 0
      ∈ (runSearchAndEvaluateLoop incompleteEmptyRefineOracle [⟨"e", "j"⟩]).1.events := by
    decide
  refine ⟨hmem, ?_, ?_⟩
  · exact (refineCall_conditions_and_empty_stops incompleteEmptyRefineOracle
      [⟨"e", "j"⟩] 0 hmem).1
  · exact (refineCall_conditions_and_empty_stops incompleteEmptyRefineOracle
      [⟨"e", "j"⟩] 0 hmem).2 rfl

/-! ### replaceList and trimList lemmas -/

theorem replaceList_cons_eq (pat repl : List Char) (c : Char) (cs : List Char) :
    replaceList pat repl (c :: cs) =
      if pat ≠ [] ∧ pat.isPrefixOf (c :: cs) then
        repl ++ replaceList pat repl (cs.drop (pat.length - 1))
      else
        c :: replaceList pat repl cs := by
  simp only [replaceList]

theorem isPrefixOf_append_self (l rest : List Char) :
    l.isPrefixOf (l ++ rest) = true := by
  induction l with
  | nil => simp [List.isPrefixOf]
  | cons a l ih => simp [List.isPrefixOf, ih]

theorem isPrefixOf_false_of_short (l₁ : List Char) :
    ∀ l₂ : List Char, l₂.length < l₁.length → l₁.isPrefixOf l₂ = false := by
  induction l₁ with
  | nil => intro l₂ h; simp at h
  | cons a l₁ ih =>
      intro l₂ h
      cases l₂ with
      | nil => rfl
      | cons b l₂ =>
          have hlen : l₂.length < l₁.length := by
            simp only [List.length_cons] at h
            omega
          simp [List.isPrefixOf, ih l₂ hlen]

theorem replaceList_cons_self (pat repl rest : List Char) (hpat : pat ≠ []) :
    replaceList pat repl (pat ++ rest) = repl ++ replaceList pat repl rest := by
  cases pat with
  | nil => exact absurd rfl hpat
  | cons p ps =>
      have hpre : (p :: ps).isPrefixOf ((p :: ps) ++ rest) = true :=
        isPrefixOf_append_self (p :: ps) rest
      rw [List.cons_append] at hpre
      rw [List.cons_append, replaceList_cons_eq,
          if_pos ⟨List.cons_ne_nil p ps, hpre⟩]
      congr 1
      rw [List.length_cons, Nat.succ_sub_one, List.drop_left]

theorem replaceList_append_no_head (pat repl : List Char) (pc : Char)
    (hpat : pat.head? = some pc) :
    ∀ (l₁ l₂ : List Char), (∀ c ∈ l₁, c ≠ pc) →
      replaceList pat repl (l₁ ++ l₂) = l₁ ++ replaceList pat repl l₂ := by
  intro l₁
  induction l₁ with
  | nil => intro l₂ h; simp
  | cons c l₁ ih =>
      intro l₂ h
      have hnp : pat.isPrefixOf (c :: (l₁ ++ l₂)) = false := by
        cases pat with
        | nil => simp at hpat
        | cons p ps =>
            have hpc : p = pc := by simpa using hpat
            have hc : c ≠ pc := h c (List.mem_cons_self c l₁)
            have hcc : (p == c) = false := by
              rw [hpc]
              exact beq_eq_false_iff_ne.mpr (Ne.symm hc)
            simp [List.isPrefixOf, hcc]
      rw [List.cons_append, replaceList_cons_eq, if_neg (by simp [hnp])]
      rw [ih l₂ (fun c' hc' => h c' (List.mem_cons_of_mem c hc'))]
      simp

theorem replaceList_of_short (pat repl : List Char) :
    ∀ l : List Char, l.length < pat.length → replaceList pat repl l = l := by
  intro l
  induction l with
  | nil => intro _; simp [replaceList]
  | cons c cs ih =>
      intro h
      have hnp : pat.isPrefixOf (c :: cs) = false :=
        isPrefixOf_false_of_short pat (c :: cs) h
      rw [replaceList_cons_eq, if_neg (by simp [hnp])]
      have hlen : cs.length < pat.length := by
        simp only [List.length_cons] at h
        omega
      rw [ih hlen]

theorem trimList_cons_ws (c : Char) (l : List Char)
    (h : c.isWhitespace = true) : trimList (c :: l) = trimList l := by
  unfold trimList
  rw [List.dropWhile_cons, if_pos h]

theorem trimList_concat_ws (c : Char) (h : c.isWhitespace = true) :
    ∀ l : List Char, trimList (l ++ [c]) = trimList l := by
  intro l
  induction l with
  | nil =>
      simp only [List.nil_append]
      unfold trimList
      rw [List.dropWhile_cons, if_pos h]
  | cons a l ih =>
      by_cases ha : a.isWhitespace = true
      · rw [List.cons_append, trimList_cons_ws a (l ++ [c]) ha,
            trimList_cons_ws a l ha, ih]
      · have hia : a.isWhitespace = false := by simpa using ha
        unfold trimList
        rw [List.cons_append, List.dropWhile_cons, if_neg (by simp [hia]),
            List.dropWhile_cons, if_neg (by simp [hia])]
        have hrev : (a :: (l ++ [c])).reverse = c :: (a :: l).reverse := by simp
        rw [hrev, List.dropWhile_cons, if_pos h]

theorem cleanedJson_fenced (body : List Char) (hb : backtick ∉ body) :
    cleanedJson ("```json\n".toList ++ body ++ "\n```".toList)
      = trimList body := by
  have hJne : fenceJson ≠ [] := by decide
  have h3ne : fence ≠ [] := by decide
  have hJhead : fenceJson.head? = some backtick := by decide
  have h3head : fence.head? = some backtick := by decide
  have hlen : fence.length < fenceJson.length := by decide
  have hl1 : ∀ c ∈ ('\n' :: (body ++ ['\n'])), c ≠ backtick := by
    intro c hc
    rcases List.mem_cons.mp hc with h | h
    · rw [h]; decide
    · rcases List.mem_append.mp h with h | h
      · exact fun hcb => hb (hcb ▸ h)
      · rw [List.mem_singleton.mp h]; decide
  have hsplit : "```json\n".toList ++ body ++ "\n```".toList
      = fenceJson ++ (('\n' :: (body ++ ['\n'])) ++ fence) := by
    have h1 : "```json\n".toList = fenceJson ++ ['\n'] := by decide
    have h2 : "\n```".toList = '\n' :: fence := by decide
    rw [h1, h2]
    simp
  rw [hsplit]
  unfold cleanedJson
  rw [replaceList_cons_self fenceJson [] _ hJne, List.nil_append,
      replaceList_append_no_head fenceJson [] backtick hJhead _ fence hl1,
      replaceList_of_short fenceJson [] fence hlen,
      replaceList_append_no_head fence [] backtick h3head _ fence hl1]
  have hfe : replaceList fence [] fence = [] := by
    have h0 : replaceList fence [] (fence ++ []) = [] ++ replaceList fence [] [] :=
      replaceList_cons_self fence [] [] h3ne
    rw [List.append_nil] at h0
    rw [h0]
    simp [replaceList]
  rw [hfe, List.append_nil]
  rw [trimList_cons_ws '\n' _ (by decide)]
  rw [trimList_concat_ws '\n' (by decide) body]

/-- C9: parseJson first strips the markdown code fences ("```json" and "```")
and trims whitespace before parsing, so a JSON body wrapped in such fences is
parsed successfully rather than rejected as malformed. -/
theorem parseJson_accepts_fenced {α : Type} (parse : List Char → Option α)
    (body : List Char) (v : α) (hb : backtick ∉ body)
    (hp : parse (trimList body) = some v) :
    parseJson parse ("```json\n".toList ++ body ++ "\n```".toList) = some v := by
  unfold parseJson
  rw [cleanedJson_fenced body hb]
  exact hp

theorem parseJson_accepts_fenced_witness :
    (backtick ∉ "1".toList ∧ witnessParse (trimList "1".toList) = some 1)
    ∧ parseJson witnessParse ("```json\n".toList ++ "1".toList ++ "\n```".toList)
        = some 1 := by
  refine ⟨⟨by decide, by decide⟩, ?_⟩
  exact parseJson_accepts_fenced witnessParse "1".toList 1 (by decide) (by decide)

end ResearchAgent
